import Mathlib

/-!
Verification development for the grocery-store discrete-event simulation
(`src/simulation.py`).

The driver `GroceryStoreSimulation.run` is translated directly from the
source.  The collaborators that the repository references but whose code is
not part of the sources under verification (the priority queue from
`container.py`, the event classes from `event.py`, the store from
`store.py`) are modelled from the specification, as marked on each
definition.

Conventions of the embedding:
* timestamps are natural numbers;
* the store ("world state") is an opaque type parameter `σ`; event execution
  (`Event.do` in the source) is a parameter `doE : Event → σ → List Event × σ`
  returning the successor events and the mutated store;
* Python runtime failures (`KeyError` from `customers[customer]`,
  `IndexError` from `customers[customer][1]`) are modelled as explicit
  `RunError` results; mutations performed before a failure persist, as they
  do on a Python object when an exception propagates out of `run`;
* the unbounded `while` loop is modelled with a fuel parameter; exhausting
  the fuel is reported as `RunError.outOfFuel`, which is distinct from every
  behaviour of the Python code.
-/

/-- Modelled from the spec: the event kinds the driver inspects
(`CustomerArrival`, `CheckoutCompleted` from `event.py`, which is not among
the sources).  Following the spec's data model, a customer identity is an
explicit key (a name); every other event kind is collapsed into `other`
because the driver treats all remaining kinds uniformly. -/
inductive EKind where
  | arrival (name : String)
  | completion (name : String)
  | other
deriving DecidableEq

/-- Modelled from the spec: an event has a timestamp and a kind-specific
payload.  Events are immutable values. -/
structure Event where
  timestamp : Nat
  kind : EKind
deriving DecidableEq

/-- Modelled from the spec: the strict part of the lexicographic
(event-order, insertion-sequence) comparison used by the queue.  Events are
ordered primarily by timestamp; equal timestamps are ordered by the
insertion sequence number. -/
def keyLt (a b : Event × Nat) : Prop :=
  a.1.timestamp < b.1.timestamp ∨ (a.1.timestamp = b.1.timestamp ∧ a.2 < b.2)

instance (a b : Event × Nat) : Decidable (keyLt a b) :=
  inferInstanceAs (Decidable (_ ∨ _))

/-- The reflexive closure of `keyLt`. -/
def keyLe (a b : Event × Nat) : Prop :=
  a.1.timestamp < b.1.timestamp ∨ (a.1.timestamp = b.1.timestamp ∧ a.2 ≤ b.2)

instance (a b : Event × Nat) : Decidable (keyLe a b) :=
  inferInstanceAs (Decidable (_ ∨ _))

/-- Select the `keyLt`-least element of `best :: l`, returning it together
with the remaining elements (in their original relative order). -/
def findMin : (Event × Nat) → List (Event × Nat) → (Event × Nat) × List (Event × Nat)
  | best, [] => (best, [])
  | best, p :: rest =>
    if keyLt p best then ((findMin p rest).1, best :: (findMin p rest).2)
    else ((findMin best rest).1, p :: (findMin best rest).2)

/-- Modelled from the spec: the priority queue of `container.py` (not among
the sources).  It holds events stamped with a monotonically increasing
insertion sequence number, used purely to break ties. -/
structure PriorityQueue where
  items : List (Event × Nat)
  next : Nat
deriving DecidableEq

/-- Modelled from the spec: a freshly constructed, empty queue. -/
def PriorityQueue.empty : PriorityQueue := ⟨[], 0⟩

/-- Modelled from the spec: `add` inserts the event, stamping it with the
next insertion sequence number; it always succeeds. -/
def PriorityQueue.add (q : PriorityQueue) (e : Event) : PriorityQueue :=
  ⟨q.items ++ [(e, q.next)], q.next + 1⟩

/-- Modelled from the spec: `is_empty` is true iff no elements are pending. -/
def PriorityQueue.is_empty (q : PriorityQueue) : Bool := q.items.isEmpty

/-- Modelled from the spec: `remove` returns and evicts the minimum element
under the (event-order, insertion-sequence) lexicographic comparison; on an
empty queue it has no answer (the Python code would fail there). -/
def PriorityQueue.remove (q : PriorityQueue) : Option ((Event × Nat) × PriorityQueue) :=
  match q.items with
  | [] => none
  | p :: rest => some ((findMin p rest).1, ⟨(findMin p rest).2, q.next⟩)

/-- The ways a call to `run` can fail to return normally.  `keyError` models
the Python `KeyError` raised by `customers[customer]` on a missing key
(line 83), `indexError` the `IndexError` raised by `customers[customer][1]`
on a too-short list (line 86).  `outOfFuel` is an artifact of bounding the
`while` loop; `emptyQueue` marks the (unreachable) removal from an empty
queue. -/
inductive RunError where
  | keyError
  | indexError
  | outOfFuel
  | emptyQueue
deriving DecidableEq

/-- The `customers` dictionary of `run` (line 68): insertion-ordered map
from a customer identity to the list of recorded timestamps. -/
abbrev CustMap := List (String × List Nat)

/-- Dictionary lookup in insertion order. -/
def lookupC : CustMap → String → Option (List Nat)
  | [], _ => none
  | (k, v) :: rest, n => if k = n then some v else lookupC rest n

/-- The membership test `customer not in customers` (line 77). -/
def containsKey (m : CustMap) (n : String) : Bool := (lookupC m n).isSome

/-- The mutation `customers[customer].append(t)` (line 83), on a key that is
present. -/
def appendEntry : CustMap → String → Nat → CustMap
  | [], _, _ => []
  | (k, v) :: rest, n, t =>
    if k = n then (k, v ++ [t]) :: rest else (k, v) :: appendEntry rest n t

/-- The per-event `customers` bookkeeping of the drain loop, lines 74-78 and
80-83 of the source: an arrival records `[timestamp]` for its customer
unless the key is already present (first arrival wins); a completion appends
its timestamp to the customer's entry and fails with a `KeyError` when the
key is missing.  (The `total_time` write of line 79 sits between the two
`if` statements in the source but touches neither the dictionary nor the
event, so it is threaded separately by the loop.) -/
def updateCust (m : CustMap) (e : Event) : Except RunError CustMap :=
  match e.kind with
  | EKind.arrival n =>
    if containsKey m n then Except.ok m else Except.ok (m ++ [(n, [e.timestamp])])
  | EKind.completion n =>
    if containsKey m n then Except.ok (appendEntry m n e.timestamp)
    else Except.error RunError.keyError
  | EKind.other => Except.ok m

/-- The customer bookkeeping folded over a list of events in execution
order. -/
def applyCustomers : List Event → CustMap → Except RunError CustMap
  | [], m => Except.ok m
  | e :: rest, m =>
    match updateCust m e with
    | Except.ok m2 => applyCustomers rest m2
    | Except.error err => Except.error err

/-- Timestamps of the checkout completions for customer `n`, in list
order. -/
def compsOf (n : String) (l : List Event) : List Nat :=
  (l.filter fun e => decide (e.kind = EKind.completion n)).map Event.timestamp

/-- Timestamp of the first arrival of customer `n` in the list, if any. -/
def firstArr (n : String) : List Event → Option Nat
  | [] => none
  | e :: rest => if e.kind = EKind.arrival n then some e.timestamp else firstArr n rest

/-- Decides whether every completion in the list is preceded by an arrival
for the same customer (`seen` carries the names of arrivals already
processed). -/
def goodComps : List String → List Event → Bool
  | _, [] => true
  | seen, e :: rest =>
    match e.kind with
    | EKind.arrival k => goodComps (k :: seen) rest
    | EKind.completion k => seen.contains k && goodComps seen rest
    | EKind.other => goodComps seen rest

/-- True iff the computation returned normally. -/
def isOkE {A : Type} : Except RunError A → Bool
  | Except.ok _ => true
  | Except.error _ => false

/-- Result of the drain loop (lines 69-83 of the source): final store,
queue, `customers` dictionary, last written `total_time`, the sequence of
executed events (ghost observation), and the failure, if any. -/
structure LoopOut (σ : Type) where
  store : σ
  q : PriorityQueue
  cust : CustMap
  total : Nat
  trace : List Event
  err : Option RunError
deriving DecidableEq

/-- The drain loop, lines 69-83 of the source:
`while not empty: remove; do; add successors; record arrival; total_time;
record completion`.  `doE` stands for the dynamically dispatched
`event.do(self._store)`; `fuel` bounds the number of iterations. -/
def drainLoop {σ : Type} (doE : Event → σ → List Event × σ) (fuel : Nat)
    (q : PriorityQueue) (s : σ) (m : CustMap) (t : Nat) : LoopOut σ :=
  if q.is_empty then ⟨s, q, m, t, [], none⟩
  else
    match fuel with
    | 0 => ⟨s, q, m, t, [], some RunError.outOfFuel⟩
    | fuel2 + 1 =>
      match q.remove with
      | none => ⟨s, q, m, t, [], some RunError.emptyQueue⟩
      | some pq =>
        let e := pq.1.1
        let r := doE e s
        let q2 := r.1.foldl PriorityQueue.add pq.2
        match updateCust m e with
        | Except.ok m2 =>
          let rest := drainLoop doE fuel2 q2 r.2 m2 e.timestamp
          ⟨rest.store, rest.q, rest.cust, rest.total, e :: rest.trace, rest.err⟩
        | Except.error err => ⟨r.2, q2, m, e.timestamp, [e], some err⟩

/-- The `max_wait` computation, lines 84-88 of the source: iterate over the
customers in dictionary (insertion) order, computing
`customers[c][1] - customers[c][0]` and keeping the maximum; an entry with
fewer than two timestamps makes `[1]` fail with an `IndexError`. -/
def maxWaitGo : Int → CustMap → Except RunError Int
  | acc, [] => Except.ok acc
  | acc, (_, l) :: rest =>
    match l.get? 1 with
    | none => Except.error RunError.indexError
    | some t1 =>
      match l.get? 0 with
      | none => Except.error RunError.indexError
      | some t0 =>
        let time : Int := (t1 : Int) - (t0 : Int)
        maxWaitGo (if acc < time then time else acc) rest

/-- `max_wait` starting from `max_time = 0` (line 84). -/
def maxWaitCalc (m : CustMap) : Except RunError Int := maxWaitGo 0 m

/-- The `stats` dictionary of the driver. -/
structure Stats where
  num_customers : Nat
  total_time : Nat
  max_wait : Int
deriving DecidableEq

/-- The driver object: `_store`, `_events`, `stats`.  (Lean identifiers do
not keep the leading underscores of the Python attribute names.) -/
structure GroceryStoreSimulation (σ : Type) where
  store : σ
  events : PriorityQueue
  stats : Stats
deriving DecidableEq

/-- `__init__`: empty queue, the configured store, all statistics zero. -/
def GroceryStoreSimulation.init {σ : Type} (store : σ) : GroceryStoreSimulation σ :=
  ⟨store, PriorityQueue.empty, ⟨0, 0, 0⟩⟩

/-- Result of a call to `run`: the driver state after the call (mutations
persist even when an exception propagates), the executed events (ghost),
and the exception, if any. -/
structure RunOut (σ : Type) where
  sim : GroceryStoreSimulation σ
  trace : List Event
  err : Option RunError
deriving DecidableEq

/-- The drain-loop part of `run`, applied to the queue obtained by adding
the initial events to the driver's queue (lines 66-67). -/
def loopOf {σ : Type} (doE : Event → σ → List Event × σ) (fuel : Nat)
    (sim : GroceryStoreSimulation σ) (evts : List Event) : LoopOut σ :=
  drainLoop doE fuel (evts.foldl PriorityQueue.add sim.events) sim.store [] 0

/-- `GroceryStoreSimulation.run`, lines 50-90 of the source: reset the
statistics (line 64), enqueue the initial events (66-67), drain the queue
(69-83), then compute `max_wait` and `num_customers` (84-90).  On a failure
the statistics reflect exactly the writes that happened before the
exception: the reset and the `total_time` updates. -/
def GroceryStoreSimulation.run {σ : Type} (sim : GroceryStoreSimulation σ)
    (doE : Event → σ → List Event × σ) (fuel : Nat)
    (initial_events : List Event) : RunOut σ :=
  let out := loopOf doE fuel sim initial_events
  match out.err with
  | some e => ⟨⟨out.store, out.q, ⟨0, out.total, 0⟩⟩, out.trace, some e⟩
  | none =>
    match maxWaitCalc out.cust with
    | Except.error e => ⟨⟨out.store, out.q, ⟨0, out.total, 0⟩⟩, out.trace, some e⟩
    | Except.ok mw => ⟨⟨out.store, out.q, ⟨out.cust.length, out.total, mw⟩⟩, out.trace, none⟩

/-- Event execution that mutates nothing and produces no successor events
(the situation of the spec's statistics examples, whose event lists are
complete runs). -/
def doNone {σ : Type} : Event → σ → List Event × σ := fun _ s => ([], s)

/-- Maximum timestamp in a list of events, `0` for the empty list. -/
def maxTs (l : List Event) : Nat := l.foldl (fun a e => max a e.timestamp) 0

/-- A queue-interface call, for stating the ordering property of the
queue. -/
inductive QOp where
  | add (e : Event)
  | remove
deriving DecidableEq

/-- Execute a sequence of queue calls, collecting the removed (event,
insertion-sequence) pairs in removal order.  A `remove` on an empty queue
removes nothing. -/
def runOps : List QOp → PriorityQueue → List (Event × Nat) → PriorityQueue × List (Event × Nat)
  | [], q, out => (q, out)
  | QOp.add e :: rest, q, out => runOps rest (q.add e) out
  | QOp.remove :: rest, q, out =>
    match q.remove with
    | none => runOps rest q out
    | some pq => runOps rest pq.2 (out ++ [pq.1])

/-- The removal sequence produced by a call sequence on a fresh queue. -/
def removedSeq (ops : List QOp) : List (Event × Nat) := (runOps ops PriorityQueue.empty []).2

/-- Checks that every added event's timestamp is at least the timestamp of
every event removed before that add (`mx` tracks the maximum removed
timestamp so far). -/
def monoCheck : List QOp → PriorityQueue → Nat → Bool
  | [], _, _ => true
  | QOp.add e :: rest, q, mx => decide (mx ≤ e.timestamp) && monoCheck rest (q.add e) mx
  | QOp.remove :: rest, q, mx =>
    match q.remove with
    | none => monoCheck rest q mx
    | some pq => monoCheck rest pq.2 (max mx pq.1.1.timestamp)

/-- `monoCheck` on a fresh queue. -/
def monotoneOK (ops : List QOp) : Bool := monoCheck ops PriorityQueue.empty 0

/-! ### Lemmas about the lexicographic key order -/

theorem keyLe_refl (a : Event × Nat) : keyLe a a := by
  unfold keyLe; omega

theorem keyLt_keyLe {a b : Event × Nat} (h : keyLt a b) : keyLe a b := by
  unfold keyLt at h; unfold keyLe; omega

theorem keyLe_of_not_keyLt {a b : Event × Nat} (h : ¬ keyLt a b) : keyLe b a := by
  unfold keyLt at h; unfold keyLe; omega

theorem keyLe_trans {a b c : Event × Nat} (h1 : keyLe a b) (h2 : keyLe b c) : keyLe a c := by
  unfold keyLe at h1 h2 ⊢; omega

theorem keyLe_keyLt {a b c : Event × Nat} (h1 : keyLe a b) (h2 : keyLt b c) : keyLe a c := by
  unfold keyLe at h1 ⊢; unfold keyLt at h2; omega

theorem keyLe_ts {a b : Event × Nat} (h : keyLe a b) : a.1.timestamp ≤ b.1.timestamp := by
  unfold keyLe at h; omega

/-! ### Lemmas about `findMin` and `remove` -/

theorem findMin_perm :
    ∀ (l : List (Event × Nat)) (best : Event × Nat),
      ((findMin best l).1 :: (findMin best l).2).Perm (best :: l) := by
  intro l
  induction l with
  | nil => intro best; simp [findMin]
  | cons p rest ih =>
    intro best
    by_cases h : keyLt p best
    · simp only [findMin, if_pos h]
      exact (List.Perm.swap best (findMin p rest).1 (findMin p rest).2).trans
        ((ih p).cons best)
    · simp only [findMin, if_neg h]
      exact (List.Perm.swap p (findMin best rest).1 (findMin best rest).2).trans
        (((ih best).cons p).trans (List.Perm.swap best p rest))

theorem findMin_le :
    ∀ (l : List (Event × Nat)) (best : Event × Nat),
      keyLe (findMin best l).1 best ∧ ∀ x ∈ l, keyLe (findMin best l).1 x := by
  intro l
  induction l with
  | nil => intro best; exact ⟨keyLe_refl best, by simp⟩
  | cons p rest ih =>
    intro best
    by_cases h : keyLt p best
    · simp only [findMin, if_pos h]
      refine ⟨keyLe_keyLt (ih p).1 h, ?_⟩
      intro x hx
      rcases List.mem_cons.1 hx with h1 | hx
      · rw [h1]; exact (ih p).1
      · exact (ih p).2 x hx
    · simp only [findMin, if_neg h]
      refine ⟨(ih best).1, ?_⟩
      intro x hx
      rcases List.mem_cons.1 hx with h1 | hx
      · rw [h1]; exact keyLe_trans (ih best).1 (keyLe_of_not_keyLt h)
      · exact (ih best).2 x hx

theorem remove_none_iff (q : PriorityQueue) : q.remove = none ↔ q.items = [] := by
  rcases q with ⟨items, nx⟩
  cases items <;> simp [PriorityQueue.remove]

theorem remove_isSome {q : PriorityQueue} (h : q.is_empty = false) :
    q.remove.isSome = true := by
  rcases q with ⟨items, nx⟩
  cases items with
  | nil => simp [PriorityQueue.is_empty] at h
  | cons p rest => simp [PriorityQueue.remove]

theorem remove_spec {q : PriorityQueue} {pq : (Event × Nat) × PriorityQueue}
    (h : q.remove = some pq) :
    (pq.1 :: pq.2.items).Perm q.items ∧ (∀ x ∈ pq.2.items, keyLe pq.1 x) ∧
      pq.2.next = q.next := by
  rcases q with ⟨items, nx⟩
  cases items with
  | nil => simp [PriorityQueue.remove] at h
  | cons p rest =>
    simp only [PriorityQueue.remove] at h
    cases h
    refine ⟨findMin_perm rest p, ?_, rfl⟩
    intro x hx
    have hx2 : x ∈ p :: rest := (findMin_perm rest p).subset (List.mem_cons_of_mem _ hx)
    rcases List.mem_cons.1 hx2 with h1 | hx3
    · rw [h1] at hx2 ⊢; exact (findMin_le rest p).1
    · exact (findMin_le rest p).2 x hx3

theorem add_items (q : PriorityQueue) (e : Event) :
    (q.add e).items = q.items ++ [(e, q.next)] ∧ (q.add e).next = q.next + 1 :=
  ⟨rfl, rfl⟩

/-! ### The queue ordering property over call sequences -/

theorem runOps_tie :
    ∀ (ops : List QOp) (q : PriorityQueue) (out : List (Event × Nat)),
      (∀ p ∈ q.items, p.2 < q.next) →
      (q.items.map Prod.snd).Nodup →
      (∀ r ∈ out, r.2 < q.next) →
      (∀ r ∈ out, ∀ p ∈ q.items, r.1.timestamp = p.1.timestamp → r.2 < p.2) →
      List.Pairwise (fun a b : Event × Nat => a.1.timestamp = b.1.timestamp → a.2 < b.2) out →
      List.Pairwise (fun a b : Event × Nat => a.1.timestamp = b.1.timestamp → a.2 < b.2)
        (runOps ops q out).2 := by
  intro ops
  induction ops with
  | nil => intro q out _ _ _ _ h5; simpa [runOps] using h5
  | cons op rest ih =>
    intro q out h1 h2 h3 h4 h5
    cases op with
    | add e =>
      simp only [runOps]
      apply ih
      · intro p hp
        simp only [PriorityQueue.add, List.mem_append, List.mem_singleton] at hp
        rcases hp with hp | rfl
        · exact Nat.lt_succ_of_lt (h1 p hp)
        · exact Nat.lt_succ_self _
      · simp only [PriorityQueue.add, List.map_append]
        rw [List.nodup_append]
        refine ⟨h2, List.nodup_singleton _, ?_⟩
        intro a ha hb
        simp only [List.map_cons, List.map_nil, List.mem_singleton] at hb
        rcases List.mem_map.1 ha with ⟨p, hp, hpa⟩
        have := h1 p hp
        omega
      · intro r hr
        exact Nat.lt_succ_of_lt (h3 r hr)
      · intro r hr p hp
        simp only [PriorityQueue.add, List.mem_append, List.mem_singleton] at hp
        rcases hp with hp | rfl
        · exact h4 r hr p hp
        · intro _; exact h3 r hr
      · exact h5
    | remove =>
      cases hrm : q.remove with
      | none =>
        simp only [runOps, hrm]
        exact ih q out h1 h2 h3 h4 h5
      | some pq =>
        simp only [runOps, hrm]
        obtain ⟨hperm, hmin, hnext⟩ := remove_spec hrm
        have hsub : ∀ x ∈ pq.2.items, x ∈ q.items :=
          fun x hx => hperm.subset (List.mem_cons_of_mem _ hx)
        have hhead : pq.1 ∈ q.items := hperm.subset (List.mem_cons_self _ _)
        have hndsnd : (pq.1.2 :: pq.2.items.map Prod.snd).Nodup := by
          have hm : ((pq.1 :: pq.2.items).map Prod.snd).Perm (q.items.map Prod.snd) :=
            hperm.map Prod.snd
          exact hm.nodup_iff.2 h2
        have hne : pq.1.2 ∉ pq.2.items.map Prod.snd := (List.nodup_cons.1 hndsnd).1
        apply ih
        · intro p hp; rw [hnext]; exact h1 p (hsub p hp)
        · exact (List.nodup_cons.1 hndsnd).2
        · intro r hr
          rw [hnext]
          rcases List.mem_append.1 hr with hr | hr
          · exact h3 r hr
          · simp only [List.mem_singleton] at hr
            subst hr
            exact h1 pq.1 hhead
        · intro r hr p hp
          rcases List.mem_append.1 hr with hr | hr
          · exact h4 r hr p (hsub p hp)
          · simp only [List.mem_singleton] at hr
            subst hr
            intro hts
            have hle : keyLe pq.1 p := hmin p hp
            have hles : pq.1.2 ≤ p.2 := by
              unfold keyLe at hle; omega
            have hmem : p.2 ∈ pq.2.items.map Prod.snd := List.mem_map_of_mem _ hp
            have hneq : pq.1.2 ≠ p.2 := fun hEq => hne (hEq ▸ hmem)
            omega
        · rw [List.pairwise_append]
          refine ⟨h5, List.pairwise_singleton _ _, ?_⟩
          intro a ha b hb
          simp only [List.mem_singleton] at hb
          subst hb
          intro hts
          exact h4 a ha pq.1 hhead hts

theorem runOps_mono :
    ∀ (ops : List QOp) (q : PriorityQueue) (out : List (Event × Nat)) (mx : Nat),
      monoCheck ops q mx = true →
      (∀ p ∈ q.items, mx ≤ p.1.timestamp) →
      (∀ r ∈ out, r.1.timestamp ≤ mx) →
      List.Pairwise (fun a b : Event × Nat => a.1.timestamp ≤ b.1.timestamp) out →
      List.Pairwise (fun a b : Event × Nat => a.1.timestamp ≤ b.1.timestamp)
        (runOps ops q out).2 := by
  intro ops
  induction ops with
  | nil => intro q out mx _ _ _ h4; simpa [runOps] using h4
  | cons op rest ih =>
    intro q out mx hchk h1 h2 h3
    cases op with
    | add e =>
      simp only [monoCheck, Bool.and_eq_true, decide_eq_true_eq] at hchk
      simp only [runOps]
      refine ih (q.add e) out mx hchk.2 ?_ h2 h3
      intro p hp
      simp only [PriorityQueue.add, List.mem_append, List.mem_singleton] at hp
      rcases hp with hp | rfl
      · exact h1 p hp
      · exact hchk.1
    | remove =>
      cases hrm : q.remove with
      | none =>
        simp only [runOps, hrm]
        simp only [monoCheck, hrm] at hchk
        exact ih q out mx hchk h1 h2 h3
      | some pq =>
        simp only [runOps, hrm]
        simp only [monoCheck, hrm] at hchk
        obtain ⟨hperm, hmin, hnext⟩ := remove_spec hrm
        have hhead : pq.1 ∈ q.items := hperm.subset (List.mem_cons_self _ _)
        refine ih pq.2 (out ++ [pq.1]) (max mx pq.1.1.timestamp) hchk ?_ ?_ ?_
        · intro p hp
          have hp2 : p ∈ q.items := hperm.subset (List.mem_cons_of_mem _ hp)
          have ha := keyLe_ts (hmin p hp)
          have hb := h1 p hp2
          omega
        · intro r hr
          rcases List.mem_append.1 hr with hr | hr
          · have := h2 r hr; omega
          · simp only [List.mem_singleton] at hr
            subst hr
            omega
        · rw [List.pairwise_append]
          refine ⟨h3, List.pairwise_singleton _ _, ?_⟩
          intro a ha b hb
          simp only [List.mem_singleton] at hb
          subst hb
          exact le_trans (h2 a ha) (h1 pq.1 hhead)

/-- C1 (counterexample): the claim quantifies over arbitrary interleavings
of `add` and `remove` calls, but the removal sequence need not be
non-decreasing when an event with a smaller timestamp is added after a
larger one has already been removed: add t=5, remove (yields 5), add t=3,
remove (yields 3) gives the decreasing removal sequence 5, 3. -/
theorem claim_C1_cex :
    ¬ List.Pairwise (fun a b : Event × Nat => a.1.timestamp ≤ b.1.timestamp)
      (removedSeq [QOp.add ⟨5, EKind.other⟩, QOp.remove,
        QOp.add ⟨3, EKind.other⟩, QOp.remove]) := by
  have h : removedSeq [QOp.add ⟨5, EKind.other⟩, QOp.remove,
      QOp.add ⟨3, EKind.other⟩, QOp.remove]
      = [(⟨5, EKind.other⟩, 0), (⟨3, EKind.other⟩, 1)] := by decide
  rw [h]
  intro hp
  have h53 := List.rel_of_pairwise_cons hp (List.mem_singleton_self _)
  simp at h53

/-- C1 (amended): for any sequence of `add` calls interleaved with `remove`
calls in which every added event's timestamp is at least the timestamp of
every event removed before that add, the sequence of removed events is
non-decreasing by timestamp; and unconditionally, for any two removed
events with equal timestamp, the one added earlier (smaller insertion
sequence number) is removed earlier (stable FIFO tie-break). -/
theorem claim_C1 (ops : List QOp) :
    (monotoneOK ops = true →
      List.Pairwise (fun a b : Event × Nat => a.1.timestamp ≤ b.1.timestamp)
        (removedSeq ops)) ∧
    List.Pairwise (fun a b : Event × Nat => a.1.timestamp = b.1.timestamp → a.2 < b.2)
      (removedSeq ops) := by
  constructor
  · intro h
    exact runOps_mono ops PriorityQueue.empty [] 0 h
      (by intro p hp; simp [PriorityQueue.empty] at hp) (by simp) (by simp)
  · exact runOps_tie ops PriorityQueue.empty []
      (by intro p hp; simp [PriorityQueue.empty] at hp)
      (by simp [PriorityQueue.empty]) (by simp) (by simp) (by simp)

/-- Witness for C1: a concrete call sequence (two equal-timestamp adds, one
later add, three removes) satisfying the monotonicity hypothesis, on which
the removal sequence is non-decreasing and FIFO-stable. -/
theorem claim_C1_witness :
    List.Pairwise (fun a b : Event × Nat => a.1.timestamp ≤ b.1.timestamp)
      (removedSeq [QOp.add ⟨3, EKind.other⟩, QOp.add ⟨3, EKind.other⟩,
        QOp.add ⟨5, EKind.other⟩, QOp.remove, QOp.remove, QOp.remove]) ∧
    List.Pairwise (fun a b : Event × Nat => a.1.timestamp = b.1.timestamp → a.2 < b.2)
      (removedSeq [QOp.add ⟨3, EKind.other⟩, QOp.add ⟨3, EKind.other⟩,
        QOp.add ⟨5, EKind.other⟩, QOp.remove, QOp.remove, QOp.remove]) :=
  ⟨(claim_C1 _).1 (by decide), (claim_C1 _).2⟩

/-! ### Lemmas about the customers dictionary -/

theorem lookupC_append_ne :
    ∀ (m : CustMap) {k n : String}, k ≠ n → ∀ (v : List Nat),
      lookupC (m ++ [(k, v)]) n = lookupC m n := by
  intro m
  induction m with
  | nil => intro k n h v; simp [lookupC, h]
  | cons p rest ih =>
    intro k n h v
    rcases p with ⟨k0, v0⟩
    by_cases h0 : k0 = n
    · simp [lookupC, h0]
    · simp only [List.cons_append, lookupC, if_neg h0]
      exact ih h v

theorem lookupC_append_self :
    ∀ (m : CustMap) {n : String}, lookupC m n = none → ∀ (v : List Nat),
      lookupC (m ++ [(n, v)]) n = some v := by
  intro m
  induction m with
  | nil => intro n _ v; simp [lookupC]
  | cons p rest ih =>
    intro n h v
    rcases p with ⟨k0, v0⟩
    by_cases h0 : k0 = n
    · simp [lookupC, h0] at h
    · simp only [lookupC, if_neg h0] at h
      simp only [List.cons_append, lookupC, if_neg h0]
      exact ih h v

theorem appendEntry_lookup_ne :
    ∀ (m : CustMap) {k n : String}, k ≠ n → ∀ (t : Nat),
      lookupC (appendEntry m n t) k = lookupC m k := by
  intro m
  induction m with
  | nil => intro k n _ t; simp [appendEntry]
  | cons p rest ih =>
    intro k n h t
    rcases p with ⟨k0, v0⟩
    by_cases h0 : k0 = n
    · subst h0
      have hkk : ¬ k0 = k := fun hx => h hx.symm
      simp [appendEntry, lookupC, hkk]
    · simp only [appendEntry, if_neg h0, lookupC]
      by_cases h1 : k0 = k
      · simp [h1]
      · simp only [if_neg h1]
        exact ih h t

theorem appendEntry_lookup_self :
    ∀ (m : CustMap) {n : String} {v : List Nat}, lookupC m n = some v → ∀ (t : Nat),
      lookupC (appendEntry m n t) n = some (v ++ [t]) := by
  intro m
  induction m with
  | nil => intro n v h t; simp [lookupC] at h
  | cons p rest ih =>
    intro n v h t
    rcases p with ⟨k0, v0⟩
    by_cases h0 : k0 = n
    · subst h0
      simp only [lookupC] at h
      rw [if_pos trivial] at h
      have hv : v0 = v := Option.some.inj h
      subst hv
      simp [appendEntry, lookupC]
    · simp only [lookupC, if_neg h0] at h
      simp only [appendEntry, if_neg h0, lookupC, if_neg h0]
      exact ih h t

theorem appendEntry_keys :
    ∀ (m : CustMap) (n : String) (t : Nat),
      (appendEntry m n t).map Prod.fst = m.map Prod.fst := by
  intro m
  induction m with
  | nil => intro n t; simp [appendEntry]
  | cons p rest ih =>
    intro n t
    rcases p with ⟨k0, v0⟩
    by_cases h0 : k0 = n
    · simp [appendEntry, h0]
    · simp only [appendEntry, if_neg h0, List.map_cons]
      rw [ih n t]

theorem containsKey_iff {m : CustMap} {n : String} :
    containsKey m n = true ↔ n ∈ m.map Prod.fst := by
  induction m with
  | nil => simp [containsKey, lookupC]
  | cons p rest ih =>
    rcases p with ⟨k0, v0⟩
    by_cases h0 : k0 = n
    · simp [containsKey, lookupC, h0]
    · simp only [containsKey, lookupC, if_neg h0, List.map_cons, List.mem_cons]
      rw [← ih]
      simp only [containsKey]
      constructor
      · intro h; exact Or.inr h
      · intro h
        rcases h with h | h
        · exact absurd h.symm h0
        · exact h

theorem containsKey_appendEntry (m : CustMap) (n : String) (t : Nat) (k : String) :
    containsKey (appendEntry m n t) k = containsKey m k := by
  by_cases h : containsKey m k = true
  · have h2 : containsKey (appendEntry m n t) k = true := by
      rw [containsKey_iff, appendEntry_keys]
      exact containsKey_iff.1 h
    rw [h, h2]
  · have h2 : ¬ containsKey (appendEntry m n t) k = true := by
      rw [containsKey_iff, appendEntry_keys]
      intro hm
      exact h (containsKey_iff.2 hm)
    rw [Bool.not_eq_true] at h h2
    rw [h, h2]

theorem containsKey_true_lookup {m : CustMap} {n : String} (h : containsKey m n = true) :
    ∃ v, lookupC m n = some v := by
  simp only [containsKey] at h
  exact Option.isSome_iff_exists.1 h

theorem containsKey_false_lookup {m : CustMap} {n : String} (h : containsKey m n = false) :
    lookupC m n = none := by
  simp only [containsKey] at h
  cases hl : lookupC m n
  · rfl
  · rw [hl] at h; simp at h

theorem compsOf_nil (n : String) : compsOf n [] = [] := rfl

theorem compsOf_cons_arrival (n k : String) (ts : Nat) (rest : List Event) :
    compsOf n (⟨ts, EKind.arrival k⟩ :: rest) = compsOf n rest := by
  simp [compsOf]

theorem compsOf_cons_other (n : String) (ts : Nat) (rest : List Event) :
    compsOf n (⟨ts, EKind.other⟩ :: rest) = compsOf n rest := by
  simp [compsOf]

theorem compsOf_cons_completion_self (n : String) (ts : Nat) (rest : List Event) :
    compsOf n (⟨ts, EKind.completion n⟩ :: rest) = ts :: compsOf n rest := by
  simp [compsOf]

theorem compsOf_cons_completion_ne {n k : String} (h : k ≠ n) (ts : Nat) (rest : List Event) :
    compsOf n (⟨ts, EKind.completion k⟩ :: rest) = compsOf n rest := by
  simp [compsOf, h]

theorem firstArr_cons_arrival_self (n : String) (ts : Nat) (rest : List Event) :
    firstArr n (⟨ts, EKind.arrival n⟩ :: rest) = some ts := by
  simp [firstArr]

theorem firstArr_cons_arrival_ne {n k : String} (h : k ≠ n) (ts : Nat) (rest : List Event) :
    firstArr n (⟨ts, EKind.arrival k⟩ :: rest) = firstArr n rest := by
  simp [firstArr, h]

theorem firstArr_cons_completion (n k : String) (ts : Nat) (rest : List Event) :
    firstArr n (⟨ts, EKind.completion k⟩ :: rest) = firstArr n rest := by
  simp [firstArr]

theorem firstArr_cons_other (n : String) (ts : Nat) (rest : List Event) :
    firstArr n (⟨ts, EKind.other⟩ :: rest) = firstArr n rest := by
  simp [firstArr]

theorem applyCustomers_lookup :
    ∀ (l : List Event) (m m2 : CustMap), applyCustomers l m = Except.ok m2 →
      ∀ (n : String),
        lookupC m2 n =
          match lookupC m n with
          | some v => some (v ++ compsOf n l)
          | none => (firstArr n l).map (fun t => t :: compsOf n l) := by
  intro l
  induction l with
  | nil =>
    intro m m2 h n
    simp only [applyCustomers] at h
    cases h
    cases hv : lookupC m n <;> simp [compsOf, firstArr, hv]
  | cons e rest ih =>
    intro m m2 h n
    rcases e with ⟨ts, kind⟩
    simp only [applyCustomers] at h
    cases hu : updateCust m ⟨ts, kind⟩ with
    | error err => simp only [hu] at h; simp at h
    | ok m1 =>
      simp only [hu] at h
      have IH := ih m1 m2 h n
      rw [IH]
      cases kind with
      | arrival k =>
        simp only [updateCust] at hu
        by_cases hc : containsKey m k = true
        · rw [if_pos hc] at hu
          cases hu
          by_cases hkn : k = n
          · subst hkn
            obtain ⟨v, hv⟩ := containsKey_true_lookup hc
            simp [hv, compsOf_cons_arrival]
          · rw [compsOf_cons_arrival, firstArr_cons_arrival_ne hkn]
        · rw [if_neg hc] at hu
          cases hu
          rw [Bool.not_eq_true] at hc
          have hnone := containsKey_false_lookup hc
          by_cases hkn : k = n
          · subst hkn
            rw [lookupC_append_self m hnone [ts], hnone,
              compsOf_cons_arrival, firstArr_cons_arrival_self]
            simp
          · rw [lookupC_append_ne m hkn [ts], compsOf_cons_arrival,
              firstArr_cons_arrival_ne hkn]
      | completion k =>
        simp only [updateCust] at hu
        by_cases hc : containsKey m k = true
        · rw [if_pos hc] at hu
          cases hu
          by_cases hkn : k = n
          · subst hkn
            obtain ⟨v, hv⟩ := containsKey_true_lookup hc
            rw [appendEntry_lookup_self m hv ts, hv, compsOf_cons_completion_self]
            simp
          · rw [appendEntry_lookup_ne m (fun hx => hkn hx.symm) ts,
              compsOf_cons_completion_ne hkn, firstArr_cons_completion]
        · rw [if_neg hc] at hu
          simp at hu
      | other =>
        simp only [updateCust] at hu
        cases hu
        rw [compsOf_cons_other, firstArr_cons_other]

theorem applyCustomers_keys_nodup :
    ∀ (l : List Event) (m m2 : CustMap), applyCustomers l m = Except.ok m2 →
      (m.map Prod.fst).Nodup → (m2.map Prod.fst).Nodup := by
  intro l
  induction l with
  | nil => intro m m2 h hn; simp only [applyCustomers] at h; cases h; exact hn
  | cons e rest ih =>
    intro m m2 h hn
    rcases e with ⟨ts, kind⟩
    simp only [applyCustomers] at h
    cases hu : updateCust m ⟨ts, kind⟩ with
    | error err => simp only [hu] at h; simp at h
    | ok m1 =>
      simp only [hu] at h
      refine ih m1 m2 h ?_
      cases kind with
      | arrival k =>
        simp only [updateCust] at hu
        by_cases hc : containsKey m k = true
        · rw [if_pos hc] at hu; cases hu; exact hn
        · rw [if_neg hc] at hu
          cases hu
          rw [Bool.not_eq_true] at hc
          have hmem : k ∉ m.map Prod.fst := by
            intro hm
            have hc2 := containsKey_iff.2 hm
            rw [hc] at hc2
            simp at hc2
          rw [List.map_append, List.nodup_append]
          refine ⟨hn, by simp, ?_⟩
          intro a ha hb
          simp only [List.map_cons, List.map_nil, List.mem_singleton] at hb
          subst hb
          exact hmem ha
      | completion k =>
        simp only [updateCust] at hu
        by_cases hc : containsKey m k = true
        · rw [if_pos hc] at hu; cases hu; rw [appendEntry_keys]; exact hn
        · rw [if_neg hc] at hu; simp at hu
      | other => simp only [updateCust] at hu; cases hu; exact hn

theorem applyCustomers_good :
    ∀ (l : List Event) (m : CustMap) (seen : List String),
      (∀ k, containsKey m k = seen.contains k) →
      (isOkE (applyCustomers l m) = goodComps seen l ∧
        (goodComps seen l = false →
          applyCustomers l m = Except.error RunError.keyError)) := by
  intro l
  induction l with
  | nil =>
    intro m seen _
    constructor
    · simp [applyCustomers, goodComps, isOkE]
    · intro h; simp [goodComps] at h
  | cons e rest ih =>
    intro m seen htr
    rcases e with ⟨ts, kind⟩
    cases kind with
    | arrival k =>
      by_cases hc : containsKey m k = true
      · have hstep : applyCustomers (⟨ts, EKind.arrival k⟩ :: rest) m
            = applyCustomers rest m := by
          simp [applyCustomers, updateCust, hc]
        have htr2 : ∀ k2, containsKey m k2 = (k :: seen).contains k2 := by
          intro k2
          rw [htr k2, List.contains_cons]
          by_cases hk2 : k2 = k
          · subst hk2
            have hsk : seen.contains k2 = true := by rw [← htr k2]; exact hc
            rw [hsk]
            simp
          · have : (k2 == k) = false := by simp [hk2]
            simp [this]
        rw [hstep]
        simp only [goodComps]
        exact ih m (k :: seen) htr2
      · rw [Bool.not_eq_true] at hc
        have hstep : applyCustomers (⟨ts, EKind.arrival k⟩ :: rest) m
            = applyCustomers rest (m ++ [(k, [ts])]) := by
          simp [applyCustomers, updateCust, hc]
        have htr2 : ∀ k2, containsKey (m ++ [(k, [ts])]) k2 = (k :: seen).contains k2 := by
          intro k2
          rw [List.contains_cons]
          by_cases hk2 : k2 = k
          · subst hk2
            have h1 : lookupC (m ++ [(k2, [ts])]) k2 = some [ts] :=
              lookupC_append_self m (containsKey_false_lookup hc) [ts]
            simp [containsKey, h1]
          · have h1 : lookupC (m ++ [(k, [ts])]) k2 = lookupC m k2 :=
              lookupC_append_ne m (fun hx => hk2 hx.symm) [ts]
            have h2 : (k2 == k) = false := by simp [hk2]
            rw [h2, Bool.false_or, ← htr k2]
            simp only [containsKey, h1]
        rw [hstep]
        simp only [goodComps]
        exact ih _ (k :: seen) htr2
    | completion k =>
      by_cases hc : containsKey m k = true
      · have hsc : seen.contains k = true := by rw [← htr k]; exact hc
        have hstep : applyCustomers (⟨ts, EKind.completion k⟩ :: rest) m
            = applyCustomers rest (appendEntry m k ts) := by
          simp [applyCustomers, updateCust, hc]
        have htr2 : ∀ k2, containsKey (appendEntry m k ts) k2 = seen.contains k2 := by
          intro k2; rw [containsKey_appendEntry]; exact htr k2
        rw [hstep]
        simp only [goodComps, hsc, Bool.true_and]
        exact ih _ seen htr2
      · rw [Bool.not_eq_true] at hc
        have hsc : seen.contains k = false := by rw [← htr k]; exact hc
        have hstep : applyCustomers (⟨ts, EKind.completion k⟩ :: rest) m
            = Except.error RunError.keyError := by
          simp [applyCustomers, updateCust, hc]
        rw [hstep]
        simp only [goodComps, hsc, Bool.false_and]
        constructor
        · simp [isOkE]
        · intro h2
          simp
    | other =>
      have hstep : applyCustomers (⟨ts, EKind.other⟩ :: rest) m
          = applyCustomers rest m := by
        simp [applyCustomers, updateCust]
      rw [hstep]
      simp only [goodComps]
      exact ih m seen htr

/-! ### Lemmas about the drain loop -/

theorem drainLoop_ok_cust {σ : Type} (doE : Event → σ → List Event × σ) :
    ∀ (fuel : Nat) (q : PriorityQueue) (s : σ) (m : CustMap) (t : Nat),
      (drainLoop doE fuel q s m t).err = none →
      applyCustomers (drainLoop doE fuel q s m t).trace m
        = Except.ok (drainLoop doE fuel q s m t).cust := by
  intro fuel
  induction fuel with
  | zero =>
    intro q s m t h
    rw [drainLoop] at h ⊢
    cases hq : q.is_empty
    · simp only [hq] at h
      simp at h
    · simp only [hq] at h ⊢
      simp [applyCustomers]
  | succ fuel ih =>
    intro q s m t h
    rw [drainLoop] at h ⊢
    cases hq : q.is_empty
    · simp only [hq] at h ⊢
      cases hrm : q.remove with
      | none =>
        simp only [hrm] at h
        simp at h
      | some pq =>
        simp only [hrm] at h ⊢
        cases hu : updateCust m pq.1.1 with
        | ok m1 =>
          simp only [hu] at h ⊢
          have hr := ih _ _ _ _ h
          simp only [applyCustomers, hu]
          exact hr
        | error err2 =>
          simp only [hu] at h
          simp at h
    · simp only [hq] at h ⊢
      simp [applyCustomers]

theorem maxTs_foldl_init : ∀ (l : List Event) (b : Nat),
    l.foldl (fun a e => max a e.timestamp) b = max b (maxTs l) := by
  intro l
  induction l with
  | nil => intro b; simp [maxTs]
  | cons e rest ih =>
    intro b
    have h2 : maxTs (e :: rest) = max (max 0 e.timestamp) (maxTs rest) :=
      ih (max 0 e.timestamp)
    show rest.foldl _ (max b e.timestamp) = max b (maxTs (e :: rest))
    rw [ih (max b e.timestamp), h2]
    omega

theorem maxTs_cons (e : Event) (l : List Event) :
    maxTs (e :: l) = max e.timestamp (maxTs l) := by
  have h := maxTs_foldl_init l (max 0 e.timestamp)
  show l.foldl _ (max 0 e.timestamp) = _
  rw [h]
  omega

theorem maxTs_perm : ∀ {l l2 : List Event}, l.Perm l2 → maxTs l = maxTs l2 := by
  intro l l2 h
  induction h with
  | nil => rfl
  | cons x h ih => rw [maxTs_cons, maxTs_cons, ih]
  | swap x y l => rw [maxTs_cons, maxTs_cons, maxTs_cons, maxTs_cons]; omega
  | trans h1 h2 ih1 ih2 => rw [ih1, ih2]

theorem maxTs_mem_le : ∀ {l : List Event} {e : Event}, e ∈ l → e.timestamp ≤ maxTs l := by
  intro l
  induction l with
  | nil => intro e he; simp at he
  | cons x rest ih =>
    intro e he
    rw [maxTs_cons]
    rcases List.mem_cons.1 he with h | h
    · rw [h]; omega
    · have := ih h; omega

theorem foldl_add_items : ∀ (l : List Event) (q : PriorityQueue),
    ((l.foldl PriorityQueue.add q).items).map Prod.fst = q.items.map Prod.fst ++ l := by
  intro l
  induction l with
  | nil => intro q; simp
  | cons e rest ih =>
    intro q
    simp only [List.foldl_cons]
    rw [ih (q.add e)]
    simp [PriorityQueue.add]

theorem mem_foldl_add : ∀ (l : List Event) (q : PriorityQueue) (p : Event × Nat),
    p ∈ q.items → p ∈ (l.foldl PriorityQueue.add q).items := by
  intro l
  induction l with
  | nil => intro q p hp; exact hp
  | cons e rest ih =>
    intro q p hp
    refine ih (q.add e) p ?_
    simp only [PriorityQueue.add, List.mem_append]
    exact Or.inl hp

theorem is_empty_true_items {q : PriorityQueue} (h : q.is_empty = true) : q.items = [] := by
  rcases q with ⟨items, nx⟩
  cases items with
  | nil => rfl
  | cons p rest => simp [PriorityQueue.is_empty] at h

theorem is_empty_false_items {q : PriorityQueue} (h : q.is_empty = false) : q.items ≠ [] := by
  rcases q with ⟨items, nx⟩
  cases items with
  | nil => simp [PriorityQueue.is_empty] at h
  | cons p rest => simp

theorem drainLoop_mem {σ : Type} (doE : Event → σ → List Event × σ) :
    ∀ (fuel : Nat) (q : PriorityQueue) (s : σ) (m : CustMap) (t : Nat),
      (drainLoop doE fuel q s m t).err = none →
      ∀ p ∈ q.items, p.1 ∈ (drainLoop doE fuel q s m t).trace := by
  intro fuel
  induction fuel with
  | zero =>
    intro q s m t h p hp
    rw [drainLoop] at h
    cases hq : q.is_empty
    · simp only [hq] at h; simp at h
    · rw [is_empty_true_items hq] at hp
      simp at hp
  | succ fuel ih =>
    intro q s m t h p hp
    rw [drainLoop] at h ⊢
    cases hq : q.is_empty
    · simp only [hq] at h ⊢
      cases hrm : q.remove with
      | none => simp only [hrm] at h; simp at h
      | some pq =>
        simp only [hrm] at h ⊢
        cases hu : updateCust m pq.1.1 with
        | ok m1 =>
          simp only [hu] at h ⊢
          obtain ⟨hperm, hmin, hnext⟩ := remove_spec hrm
          have hp2 : p = pq.1 ∨ p ∈ pq.2.items :=
            List.mem_cons.1 (hperm.symm.subset hp)
          rcases hp2 with h1 | h1
          · rw [h1]
            exact List.mem_cons_self _ _
          · have hq2 : p ∈ ((doE pq.1.1 s).1.foldl PriorityQueue.add pq.2).items :=
              mem_foldl_add _ pq.2 p h1
            exact List.mem_cons_of_mem _ (ih _ _ _ _ h p hq2)
        | error err2 => simp only [hu] at h; simp at h
    · rw [is_empty_true_items hq] at hp
      simp at hp

theorem drainLoop_nosucc {σ : Type} (doE : Event → σ → List Event × σ)
    (hno : ∀ (e : Event) (s : σ), (doE e s).1 = []) :
    ∀ (fuel : Nat) (q : PriorityQueue) (s : σ) (m : CustMap) (t : Nat),
      (drainLoop doE fuel q s m t).err = none →
      ((drainLoop doE fuel q s m t).trace).Perm (q.items.map Prod.fst) ∧
      (drainLoop doE fuel q s m t).total
        = (if q.items = [] then t else maxTs (q.items.map Prod.fst)) := by
  intro fuel
  induction fuel with
  | zero =>
    intro q s m t h
    rw [drainLoop] at h ⊢
    cases hq : q.is_empty
    · simp only [hq] at h; simp at h
    · have hit := is_empty_true_items hq
      simp only [hq]
      simp [hit]
  | succ fuel ih =>
    intro q s m t h
    rw [drainLoop] at h ⊢
    cases hq : q.is_empty
    · simp only [hq] at h ⊢
      cases hrm : q.remove with
      | none => simp only [hrm] at h; simp at h
      | some pq =>
        simp only [hrm] at h ⊢
        cases hu : updateCust m pq.1.1 with
        | error err2 => simp only [hu] at h; simp at h
        | ok m1 =>
          simp only [hu] at h ⊢
          rw [hno pq.1.1 s] at h ⊢
          simp only [List.foldl_nil] at h ⊢
          rw [if_neg Bool.false_ne_true]
          dsimp only
          obtain ⟨ihp, iht⟩ := ih _ _ _ _ h
          obtain ⟨hperm, hmin, hnext⟩ := remove_spec hrm
          have hqne : q.items ≠ [] := is_empty_false_items hq
          constructor
          · exact (ihp.cons pq.1.1).trans (hperm.map Prod.fst)
          · by_cases h2 : pq.2.items = []
            · rw [iht, if_pos h2, if_neg hqne]
              have hp1 : (q.items.map Prod.fst).Perm [pq.1.1] := by
                have hx := (hperm.map Prod.fst).symm
                rw [h2] at hx
                exact hx
              rw [maxTs_perm hp1, maxTs_cons]
              simp [maxTs]
            · rw [iht, if_neg h2, if_neg hqne]
              have hperm2 : (q.items.map Prod.fst).Perm
                  (pq.1.1 :: pq.2.items.map Prod.fst) := (hperm.map Prod.fst).symm
              rw [maxTs_perm hperm2, maxTs_cons]
              obtain ⟨x, hx⟩ := List.exists_mem_of_ne_nil _ h2
              have h3 : pq.1.1.timestamp ≤ x.1.timestamp := keyLe_ts (hmin x hx)
              have h4 : x.1.timestamp ≤ maxTs (pq.2.items.map Prod.fst) :=
                maxTs_mem_le (List.mem_map_of_mem _ hx)
              omega
    · have hit := is_empty_true_items hq
      simp only [hq]
      simp [hit]

/-! ### Lemmas about `run` -/

theorem run_ok_spec {σ : Type} (doE : Event → σ → List Event × σ) (fuel : Nat)
    (sim : GroceryStoreSimulation σ) (evts : List Event)
    (h : (sim.run doE fuel evts).err = none) :
    (loopOf doE fuel sim evts).err = none ∧
    ∃ mw, maxWaitCalc (loopOf doE fuel sim evts).cust = Except.ok mw ∧
      sim.run doE fuel evts =
        ⟨⟨(loopOf doE fuel sim evts).store, (loopOf doE fuel sim evts).q,
          ⟨(loopOf doE fuel sim evts).cust.length, (loopOf doE fuel sim evts).total, mw⟩⟩,
          (loopOf doE fuel sim evts).trace, none⟩ := by
  simp only [GroceryStoreSimulation.run] at h ⊢
  cases he : (loopOf doE fuel sim evts).err with
  | some e2 => simp only [he] at h; simp at h
  | none =>
    simp only [he] at h ⊢
    cases hm : maxWaitCalc (loopOf doE fuel sim evts).cust with
    | error e2 => simp only [hm] at h; simp at h
    | ok mw =>
      simp only [hm]
      refine ⟨?_, mw, ?_, ?_⟩ <;> first | rfl | trivial

theorem run_trace_total {σ : Type} (doE : Event → σ → List Event × σ) (fuel : Nat)
    (sim : GroceryStoreSimulation σ) (evts : List Event) :
    (sim.run doE fuel evts).trace = (loopOf doE fuel sim evts).trace ∧
    (sim.run doE fuel evts).sim.stats.total_time = (loopOf doE fuel sim evts).total := by
  simp only [GroceryStoreSimulation.run]
  cases he : (loopOf doE fuel sim evts).err with
  | some e2 =>
    simp only [he]
    refine ⟨?_, ?_⟩ <;> first | rfl | trivial
  | none =>
    simp only [he]
    cases hm : maxWaitCalc (loopOf doE fuel sim evts).cust with
    | error e2 =>
      simp only [hm]
      refine ⟨?_, ?_⟩ <;> first | rfl | trivial
    | ok mw =>
      simp only [hm]
      refine ⟨?_, ?_⟩ <;> first | rfl | trivial

theorem updateCust_error {m : CustMap} {e : Event} {err : RunError}
    (h : updateCust m e = Except.error err) : err = RunError.keyError := by
  rcases e with ⟨ts, kind⟩
  cases kind with
  | arrival k =>
    simp only [updateCust] at h
    by_cases hc : containsKey m k = true
    · rw [if_pos hc] at h; simp at h
    · rw [if_neg hc] at h; simp at h
  | completion k =>
    simp only [updateCust] at h
    by_cases hc : containsKey m k = true
    · rw [if_pos hc] at h; simp at h
    · rw [if_neg hc] at h
      cases h
      rfl
  | other => simp only [updateCust] at h; simp at h

theorem drainLoop_no_emptyQueue {σ : Type} (doE : Event → σ → List Event × σ) :
    ∀ (fuel : Nat) (q : PriorityQueue) (s : σ) (m : CustMap) (t : Nat),
      (drainLoop doE fuel q s m t).err ≠ some RunError.emptyQueue := by
  intro fuel
  induction fuel with
  | zero =>
    intro q s m t hcon
    rw [drainLoop] at hcon
    cases hq : q.is_empty
    · simp only [hq] at hcon
      simp at hcon
    · simp only [hq] at hcon
      simp at hcon
  | succ fuel ih =>
    intro q s m t hcon
    rw [drainLoop] at hcon
    cases hq : q.is_empty
    · simp only [hq] at hcon
      cases hrm : q.remove with
      | none =>
        have hs := remove_isSome hq
        rw [hrm] at hs
        simp at hs
      | some pq =>
        simp only [hrm] at hcon
        cases hu : updateCust m pq.1.1 with
        | ok m1 =>
          simp only [hu] at hcon
          exact ih _ _ _ _ hcon
        | error err2 =>
          have he2 := updateCust_error hu
          subst he2
          simp only [hu] at hcon
          simp at hcon
    · simp only [hq] at hcon
      simp at hcon

/-- C2: running the simulation on the initial event list
arrival(A, 0), completion(A, 5), arrival(B, 2), completion(B, 4) — whose
events produce no successors — terminates normally with
num_customers = 2, total_time = 5, max_wait = 5. -/
theorem claim_C2 :
    ((GroceryStoreSimulation.init ()).run doNone 10
      [⟨0, EKind.arrival "A"⟩, ⟨5, EKind.completion "A"⟩,
       ⟨2, EKind.arrival "B"⟩, ⟨4, EKind.completion "B"⟩]).sim.stats
      = ⟨2, 5, 5⟩ ∧
    ((GroceryStoreSimulation.init ()).run doNone 10
      [⟨0, EKind.arrival "A"⟩, ⟨5, EKind.completion "A"⟩,
       ⟨2, EKind.arrival "B"⟩, ⟨4, EKind.completion "B"⟩]).err = none := by
  decide

/-- C6: calling `run` with an empty initial event list (on a driver whose
event queue is empty, as after construction) yields `num_customers = 0`,
`total_time = 0`, `max_wait = 0` and no error. -/
theorem claim_C6 {σ : Type} (doE : Event → σ → List Event × σ) (fuel : Nat)
    (sim : GroceryStoreSimulation σ) (h : sim.events.items = []) :
    (sim.run doE fuel []).sim.stats = ⟨0, 0, 0⟩ ∧ (sim.run doE fuel []).err = none := by
  rcases sim with ⟨st, ⟨items, nx⟩, stats⟩
  have h2 : items = [] := h
  subst h2
  have hloop : loopOf doE fuel ⟨st, ⟨[], nx⟩, stats⟩ []
      = ⟨st, ⟨[], nx⟩, [], 0, [], none⟩ := by
    simp only [loopOf, List.foldl_nil]
    rw [drainLoop.eq_def]
    rfl
  have hrun : GroceryStoreSimulation.run ⟨st, ⟨[], nx⟩, stats⟩ doE fuel []
      = ⟨⟨st, ⟨[], nx⟩, ⟨0, 0, 0⟩⟩, [], none⟩ := by
    simp only [GroceryStoreSimulation.run, hloop]
    rfl
  rw [hrun]
  exact ⟨rfl, rfl⟩

/-- Witness for C6: the freshly constructed driver, run on the empty list
with fuel 3, gives all-zero statistics and no error. -/
theorem claim_C6_witness :
    ((GroceryStoreSimulation.init ()).run doNone 3 []).sim.stats = ⟨0, 0, 0⟩ ∧
      ((GroceryStoreSimulation.init ()).run doNone 3 []).err = none :=
  claim_C6 doNone 3 (GroceryStoreSimulation.init ()) rfl

/-- C7: `run` resets all three statistics fields before doing anything
else (line 64), so its result is independent of the statistics held before
the call: two drivers that differ only in their prior statistics produce
identical final statistics on the same events. -/
theorem claim_C7 {σ : Type} (doE : Event → σ → List Event × σ) (fuel : Nat)
    (s1 s2 : GroceryStoreSimulation σ) (evts : List Event)
    (hst : s1.store = s2.store) (hev : s1.events = s2.events) :
    (s1.run doE fuel evts).sim.stats = (s2.run doE fuel evts).sim.stats := by
  rcases s1 with ⟨st1, ev1, stats1⟩
  rcases s2 with ⟨st2, ev2, stats2⟩
  have h1 : st1 = st2 := hst
  have h2 : ev1 = ev2 := hev
  subst h1
  subst h2
  rfl

/-- Witness for C7: two drivers with different prior statistics (1,2,3) and
(7,8,9) yield the same statistics on the same two-event run. -/
theorem claim_C7_witness :
    ((⟨(), PriorityQueue.empty, ⟨1, 2, 3⟩⟩ : GroceryStoreSimulation Unit).run doNone 5
        [⟨0, EKind.arrival "A"⟩, ⟨1, EKind.completion "A"⟩]).sim.stats
      = ((⟨(), PriorityQueue.empty, ⟨7, 8, 9⟩⟩ : GroceryStoreSimulation Unit).run doNone 5
        [⟨0, EKind.arrival "A"⟩, ⟨1, EKind.completion "A"⟩]).sim.stats :=
  claim_C7 doNone 5 _ _ _ rfl rfl

/-- C8: removal from a non-empty queue always succeeds, and the drain loop,
which checks emptiness before removing (line 69), can never hit the
empty-queue failure of `remove` — its result never carries the
`emptyQueue` error. -/
theorem claim_C8 {σ : Type} (doE : Event → σ → List Event × σ) (fuel : Nat)
    (q : PriorityQueue) (s : σ) (m : CustMap) (t : Nat) :
    (q.is_empty = false → q.remove.isSome = true) ∧
    (drainLoop doE fuel q s m t).err ≠ some RunError.emptyQueue :=
  ⟨fun h => remove_isSome h, drainLoop_no_emptyQueue doE fuel q s m t⟩

/-- Witness for C8: a singleton queue is non-empty, its removal succeeds,
and a concrete drain run never reports the empty-queue error. -/
theorem claim_C8_witness :
    (⟨[(⟨1, EKind.other⟩, 0)], 1⟩ : PriorityQueue).remove.isSome = true ∧
    (drainLoop (σ := Unit) doNone 3 ⟨[(⟨1, EKind.other⟩, 0)], 1⟩ () [] 0).err
      ≠ some RunError.emptyQueue :=
  ⟨(claim_C8 (σ := Unit) doNone 3 ⟨[(⟨1, EKind.other⟩, 0)], 1⟩ () [] 0).1 rfl,
    (claim_C8 (σ := Unit) doNone 3 ⟨[(⟨1, EKind.other⟩, 0)], 1⟩ () [] 0).2⟩

theorem loopOf_ok_cust {σ : Type} (doE : Event → σ → List Event × σ) (fuel : Nat)
    (sim : GroceryStoreSimulation σ) (evts : List Event)
    (h : (loopOf doE fuel sim evts).err = none) :
    applyCustomers (loopOf doE fuel sim evts).trace []
      = Except.ok (loopOf doE fuel sim evts).cust :=
  drainLoop_ok_cust doE fuel _ _ _ _ h

theorem lookupC_mem : ∀ (m : CustMap) {n : String} {v : List Nat},
    lookupC m n = some v → (n, v) ∈ m := by
  intro m
  induction m with
  | nil => intro n v h; simp [lookupC] at h
  | cons p rest ih =>
    intro n v h
    rcases p with ⟨k0, v0⟩
    by_cases h0 : k0 = n
    · subst h0
      simp only [lookupC] at h
      rw [if_pos trivial] at h
      have hv : v0 = v := Option.some.inj h
      subst hv
      exact List.mem_cons_self _ _
    · simp only [lookupC, if_neg h0] at h
      exact List.mem_cons_of_mem _ (ih h)

theorem maxWaitGo_short : ∀ (m : CustMap) (acc : Int) {k : String} {l : List Nat},
    (k, l) ∈ m → l[1]? = none →
    maxWaitGo acc m = Except.error RunError.indexError := by
  intro m
  induction m with
  | nil => intro acc k l h _; simp at h
  | cons p rest ih =>
    intro acc k l hmem hget
    rcases p with ⟨k0, l0⟩
    rcases List.mem_cons.1 hmem with h1 | h1
    · injection h1 with hk hl
      subst hl
      simp [maxWaitGo, hget]
    · cases hg0 : l0[1]? with
      | none => simp [maxWaitGo, hg0]
      | some t1 =>
        cases l0 with
        | nil => simp at hg0
        | cons x0 ltail =>
          cases ltail with
          | nil => simp at hg0
          | cons x1 ltail2 =>
            have hstep : maxWaitGo acc ((k0, x0 :: x1 :: ltail2) :: rest)
                = maxWaitGo
                  (if acc < (x1 : Int) - (x0 : Int) then (x1 : Int) - (x0 : Int) else acc)
                  rest := by
              simp [maxWaitGo]
            rw [hstep]
            exact ih _ h1 hget

theorem firstArr_isSome : ∀ {l : List Event} {n : String} {t : Nat},
    (⟨t, EKind.arrival n⟩ : Event) ∈ l → ∃ a, firstArr n l = some a := by
  intro l
  induction l with
  | nil => intro n t h; simp at h
  | cons e rest ih =>
    intro n t h
    by_cases hk : e.kind = EKind.arrival n
    · exact ⟨e.timestamp, by simp [firstArr, hk]⟩
    · rcases List.mem_cons.1 h with h1 | h1
      · rw [← h1] at hk
        simp at hk
      · obtain ⟨a, ha⟩ := ih h1
        refine ⟨a, ?_⟩
        simp only [firstArr, if_neg hk]
        exact ha

/-- C3 (counterexample): a run whose single event is an arrival with no
matching completion does not compute its statistics defensively — the
`max_wait` loop evaluates `customers[c][1]` on a one-element list and the
run fails with an index error instead of excluding the customer. -/
theorem claim_C3_cex :
    ((GroceryStoreSimulation.init ()).run doNone 5 [⟨0, EKind.arrival "A"⟩]).err
      = some RunError.indexError := by
  decide

/-- C3 (amended): in any run whose drain loop completes and in which some
customer has an executed arrival but no executed completion, the statistics
computation does not complete: computing `max_wait` fails with an
index-out-of-range error (line 86 of the source).  Such customers are not
excluded from the maximum; `max_wait` is 0 only when no customer was
recorded at all. -/
theorem claim_C3 {σ : Type} (doE : Event → σ → List Event × σ) (fuel : Nat)
    (sim : GroceryStoreSimulation σ) (evts : List Event) (n : String) (a : Nat)
    (hloop : (loopOf doE fuel sim evts).err = none)
    (harr : firstArr n (loopOf doE fuel sim evts).trace = some a)
    (hnc : compsOf n (loopOf doE fuel sim evts).trace = []) :
    (sim.run doE fuel evts).err = some RunError.indexError := by
  have hcust := loopOf_ok_cust doE fuel sim evts hloop
  have hlook := applyCustomers_lookup _ _ _ hcust n
  simp only [lookupC] at hlook
  rw [harr, hnc] at hlook
  simp only [Option.map_some'] at hlook
  have hmem : (n, [a]) ∈ (loopOf doE fuel sim evts).cust := lookupC_mem _ hlook
  have hmwc : maxWaitCalc (loopOf doE fuel sim evts).cust
      = Except.error RunError.indexError :=
    maxWaitGo_short _ 0 hmem (by simp)
  simp only [GroceryStoreSimulation.run, hloop, hmwc]

/-- Witness for C3: a concrete run with one arrival and no completion, on
which the drain loop succeeds, the customer has a recorded arrival and no
completions, and `run` reports the index error. -/
theorem claim_C3_witness :
    ((GroceryStoreSimulation.init ()).run doNone 5 [⟨2, EKind.arrival "A"⟩]).err
      = some RunError.indexError :=
  claim_C3 doNone 5 (GroceryStoreSimulation.init ()) [⟨2, EKind.arrival "A"⟩] "A" 2
    (by decide) (by decide) (by decide)

/-- C9: the statistics bookkeeping fails with a key-error lookup exactly
when some processed checkout-completion's customer has no arrival executed
earlier in the run (line 83 of the source); consequently a run that
completes without error has every completion preceded by an arrival of the
same customer in its execution trace. -/
theorem claim_C9 {σ : Type} (l : List Event) (doE : Event → σ → List Event × σ)
    (fuel : Nat) (sim : GroceryStoreSimulation σ) (evts : List Event) :
    ((applyCustomers l [] = Except.error RunError.keyError) ↔ goodComps [] l = false) ∧
    ((sim.run doE fuel evts).err = none →
      goodComps [] (sim.run doE fuel evts).trace = true) := by
  have hbase : ∀ k, containsKey ([] : CustMap) k = ([] : List String).contains k := by
    intro k; rfl
  obtain ⟨hok, herr⟩ := applyCustomers_good l [] [] hbase
  constructor
  · constructor
    · intro h
      rw [← hok, h]
      rfl
    · intro h
      exact herr h
  · intro h
    obtain ⟨hloop, _⟩ := run_ok_spec doE fuel sim evts h
    have htr := (run_trace_total doE fuel sim evts).1
    rw [htr]
    have hcust := loopOf_ok_cust doE fuel sim evts hloop
    obtain ⟨hok2, _⟩ :=
      applyCustomers_good ((loopOf doE fuel sim evts).trace) [] [] hbase
    rw [← hok2, hcust]
    rfl

/-- Witness for C9: a lone completion event makes the bookkeeping fold fail
with the key error, and a concrete successful run (arrival then completion)
has every completion preceded by its arrival. -/
theorem claim_C9_witness :
    (applyCustomers [⟨3, EKind.completion "A"⟩] [] = Except.error RunError.keyError) ∧
    goodComps [] (((GroceryStoreSimulation.init ()).run doNone 5
      [⟨0, EKind.arrival "A"⟩, ⟨2, EKind.completion "A"⟩]).trace) = true :=
  ⟨(claim_C9 [⟨3, EKind.completion "A"⟩] doNone 5 (GroceryStoreSimulation.init ())
      [⟨0, EKind.arrival "A"⟩, ⟨2, EKind.completion "A"⟩]).1.mpr (by decide),
    (claim_C9 [⟨3, EKind.completion "A"⟩] doNone 5 (GroceryStoreSimulation.init ())
      [⟨0, EKind.arrival "A"⟩, ⟨2, EKind.completion "A"⟩]).2 (by decide)⟩

theorem maxWaitGo_take2 :
    ∀ (m : CustMap) (acc : Int),
      maxWaitGo acc m = maxWaitGo acc (m.map fun p => (p.1, p.2.take 2)) := by
  intro m
  induction m with
  | nil => intro acc; rfl
  | cons p rest ih =>
    intro acc
    rcases p with ⟨k0, l0⟩
    cases l0 with
    | nil => simp [maxWaitGo]
    | cons x0 lt =>
      cases lt with
      | nil => simp [maxWaitGo]
      | cons x1 lt2 =>
        have hstep1 : maxWaitGo acc ((k0, x0 :: x1 :: lt2) :: rest)
            = maxWaitGo
              (if acc < (x1 : Int) - (x0 : Int) then (x1 : Int) - (x0 : Int) else acc)
              rest := by
          simp [maxWaitGo]
        have hstep2 : maxWaitGo acc
              (((k0, x0 :: x1 :: lt2) :: rest).map fun p => (p.1, p.2.take 2))
            = maxWaitGo
              (if acc < (x1 : Int) - (x0 : Int) then (x1 : Int) - (x0 : Int) else acc)
              (rest.map fun p => (p.1, p.2.take 2)) := by
          simp [maxWaitGo]
        rw [hstep1, hstep2]
        exact ih _

/-- C10: in a successful run in which customer `n` has an arrival (first
arrival at `a`) followed by two or more completions `c1, c2, ...`, all the
completions are recorded in `n`'s entry in order after `a`, the `max_wait`
computation reads only the first two positions of every entry (so `c2` and
later are recorded but never read), and the entry's contribution to the
maximum is `c1 - a`, the first completion minus the arrival. -/
theorem claim_C10 {σ : Type} (doE : Event → σ → List Event × σ) (fuel : Nat)
    (sim : GroceryStoreSimulation σ) (evts : List Event) (n : String)
    (a c1 c2 : Nat) (cs : List Nat)
    (hok : (sim.run doE fuel evts).err = none)
    (harr : firstArr n (loopOf doE fuel sim evts).trace = some a)
    (hcomps : compsOf n (loopOf doE fuel sim evts).trace = c1 :: c2 :: cs) :
    lookupC (loopOf doE fuel sim evts).cust n = some (a :: c1 :: c2 :: cs) ∧
    maxWaitCalc (loopOf doE fuel sim evts).cust
      = maxWaitCalc ((loopOf doE fuel sim evts).cust.map fun p => (p.1, p.2.take 2)) ∧
    (∀ acc : Int, maxWaitGo acc [(n, a :: c1 :: c2 :: cs)]
      = Except.ok (if acc < (c1 : Int) - (a : Int) then (c1 : Int) - (a : Int) else acc)) := by
  obtain ⟨hloop, _⟩ := run_ok_spec doE fuel sim evts hok
  have hcust := loopOf_ok_cust doE fuel sim evts hloop
  have hlook := applyCustomers_lookup _ _ _ hcust n
  simp only [lookupC] at hlook
  rw [harr, hcomps] at hlook
  simp only [Option.map_some'] at hlook
  refine ⟨hlook, maxWaitGo_take2 _ 0, ?_⟩
  intro acc
  simp [maxWaitGo]

/-- Witness for C10: a concrete successful run with arrival(A, 0),
completion(A, 3), completion(A, 7): the entry for A is [0, 3, 7], max-wait
reads only the first two positions, and A's contribution is 3 - 0. -/
theorem claim_C10_witness :
    lookupC (loopOf doNone 10 (GroceryStoreSimulation.init ())
        [⟨0, EKind.arrival "A"⟩, ⟨3, EKind.completion "A"⟩,
         ⟨7, EKind.completion "A"⟩]).cust "A" = some [0, 3, 7] ∧
    maxWaitCalc (loopOf doNone 10 (GroceryStoreSimulation.init ())
        [⟨0, EKind.arrival "A"⟩, ⟨3, EKind.completion "A"⟩,
         ⟨7, EKind.completion "A"⟩]).cust
      = maxWaitCalc ((loopOf doNone 10 (GroceryStoreSimulation.init ())
        [⟨0, EKind.arrival "A"⟩, ⟨3, EKind.completion "A"⟩,
         ⟨7, EKind.completion "A"⟩]).cust.map fun p => (p.1, p.2.take 2)) ∧
    (∀ acc : Int, maxWaitGo acc [("A", [0, 3, 7])]
      = Except.ok (if acc < (3 : Int) - (0 : Int) then (3 : Int) - (0 : Int) else acc)) :=
  claim_C10 doNone 10 (GroceryStoreSimulation.init ())
    [⟨0, EKind.arrival "A"⟩, ⟨3, EKind.completion "A"⟩, ⟨7, EKind.completion "A"⟩]
    "A" 0 3 7 [] (by decide) (by decide) (by decide)

/-- C5: in a run whose drain loop completes, started on a fresh (empty)
queue with initial events none of whose executions produce successor
events, exactly N events are executed (N the number of initial events) and
the final `total_time` equals the maximum timestamp among the initial
events. -/
theorem claim_C5 {σ : Type} (doE : Event → σ → List Event × σ) (fuel : Nat)
    (sim : GroceryStoreSimulation σ) (evts : List Event)
    (hq : sim.events.items = [])
    (hno : ∀ (e : Event) (s : σ), (doE e s).1 = [])
    (hloop : (loopOf doE fuel sim evts).err = none) :
    (sim.run doE fuel evts).trace.length = evts.length ∧
    (sim.run doE fuel evts).sim.stats.total_time = maxTs evts := by
  obtain ⟨htr, hto⟩ := run_trace_total doE fuel sim evts
  obtain ⟨hp, ht⟩ := drainLoop_nosucc doE hno fuel
    (evts.foldl PriorityQueue.add sim.events) sim.store [] 0 hloop
  have hitems : ((evts.foldl PriorityQueue.add sim.events).items).map Prod.fst = evts := by
    rw [foldl_add_items, hq]
    rfl
  constructor
  · rw [htr]
    rw [hitems] at hp
    exact hp.length_eq
  · rw [hto]
    have ht2 : (loopOf doE fuel sim evts).total
        = (if (evts.foldl PriorityQueue.add sim.events).items = [] then 0
           else maxTs (((evts.foldl PriorityQueue.add sim.events).items).map Prod.fst)) := ht
    rw [ht2]
    by_cases hev : (evts.foldl PriorityQueue.add sim.events).items = []
    · rw [if_pos hev]
      rw [hev] at hitems
      simp only [List.map_nil] at hitems
      rw [← hitems]
      rfl
    · rw [if_neg hev, hitems]

/-- Witness for C5: a concrete two-event run with no successors executes
exactly two events and ends with total_time equal to the larger
timestamp. -/
theorem claim_C5_witness :
    ((GroceryStoreSimulation.init ()).run doNone 10
      [⟨0, EKind.arrival "A"⟩, ⟨2, EKind.completion "A"⟩]).trace.length
      = ([⟨0, EKind.arrival "A"⟩, ⟨2, EKind.completion "A"⟩] : List Event).length ∧
    ((GroceryStoreSimulation.init ()).run doNone 10
      [⟨0, EKind.arrival "A"⟩, ⟨2, EKind.completion "A"⟩]).sim.stats.total_time
      = maxTs [⟨0, EKind.arrival "A"⟩, ⟨2, EKind.completion "A"⟩] :=
  claim_C5 doNone 10 (GroceryStoreSimulation.init ())
    [⟨0, EKind.arrival "A"⟩, ⟨2, EKind.completion "A"⟩]
    rfl (fun _ _ => rfl) (by decide)

/-- C4: in a successful run whose initial events contain two arrivals for
the same customer name at different timestamps, the customers dictionary
records that name exactly once (so `num_customers`, which is the size of
the dictionary, counts it once), and the recorded arrival timestamp — the
head of the name's entry — is that of the first arrival processed in the
execution order. -/
theorem claim_C4 {σ : Type} (doE : Event → σ → List Event × σ) (fuel : Nat)
    (sim : GroceryStoreSimulation σ) (evts : List Event) (n : String) (t1 t2 : Nat)
    (hne : t1 ≠ t2)
    (h1 : (⟨t1, EKind.arrival n⟩ : Event) ∈ evts)
    (h2 : (⟨t2, EKind.arrival n⟩ : Event) ∈ evts)
    (hok : (sim.run doE fuel evts).err = none) :
    ((loopOf doE fuel sim evts).cust.map Prod.fst).count n = 1 ∧
    (sim.run doE fuel evts).sim.stats.num_customers
      = (loopOf doE fuel sim evts).cust.length ∧
    (∃ cs, lookupC (loopOf doE fuel sim evts).cust n = some cs ∧
      cs.head? = firstArr n (loopOf doE fuel sim evts).trace) := by
  obtain ⟨hloop, mw, hmw, hrun⟩ := run_ok_spec doE fuel sim evts hok
  have hcust := loopOf_ok_cust doE fuel sim evts hloop
  have hlook := applyCustomers_lookup _ _ _ hcust n
  simp only [lookupC] at hlook
  have hm1 : (⟨t1, EKind.arrival n⟩ : Event)
      ∈ ((evts.foldl PriorityQueue.add sim.events).items).map Prod.fst := by
    rw [foldl_add_items]
    exact List.mem_append_right _ h1
  obtain ⟨p, hp, hpe⟩ := List.mem_map.1 hm1
  have hk1 : ((⟨t1, EKind.arrival n⟩ : Event), p.2)
      ∈ (evts.foldl PriorityQueue.add sim.events).items := by
    rw [← hpe]
    exact hp
  have htrmem : (⟨t1, EKind.arrival n⟩ : Event) ∈ (loopOf doE fuel sim evts).trace :=
    drainLoop_mem doE fuel _ _ _ _ hloop _ hk1
  obtain ⟨a, ha⟩ := firstArr_isSome htrmem
  rw [ha] at hlook
  simp only [Option.map_some'] at hlook
  refine ⟨?_, ?_, ?_⟩
  · have hnodup := applyCustomers_keys_nodup _ _ _ hcust (by simp)
    have hck : containsKey (loopOf doE fuel sim evts).cust n = true := by
      simp only [containsKey, hlook]
      rfl
    exact List.count_eq_one_of_mem hnodup (containsKey_iff.1 hck)
  · rw [hrun]
  · refine ⟨a :: compsOf n (loopOf doE fuel sim evts).trace, hlook, ?_⟩
    rw [ha]
    rfl

/-- Witness for C4: a concrete successful run with two arrivals for A (at
0 and at 7) and one completion: A is counted once, num_customers is the
dictionary size, and A's recorded arrival timestamp is 0, the first arrival
processed. -/
theorem claim_C4_witness :
    ((loopOf doNone 10 (GroceryStoreSimulation.init ())
        [⟨0, EKind.arrival "A"⟩, ⟨7, EKind.arrival "A"⟩,
         ⟨9, EKind.completion "A"⟩]).cust.map Prod.fst).count "A" = 1 ∧
    ((GroceryStoreSimulation.init ()).run doNone 10
        [⟨0, EKind.arrival "A"⟩, ⟨7, EKind.arrival "A"⟩,
         ⟨9, EKind.completion "A"⟩]).sim.stats.num_customers
      = (loopOf doNone 10 (GroceryStoreSimulation.init ())
        [⟨0, EKind.arrival "A"⟩, ⟨7, EKind.arrival "A"⟩,
         ⟨9, EKind.completion "A"⟩]).cust.length ∧
    (∃ cs, lookupC (loopOf doNone 10 (GroceryStoreSimulation.init ())
        [⟨0, EKind.arrival "A"⟩, ⟨7, EKind.arrival "A"⟩,
         ⟨9, EKind.completion "A"⟩]).cust "A" = some cs ∧
      cs.head? = firstArr "A" (loopOf doNone 10 (GroceryStoreSimulation.init ())
        [⟨0, EKind.arrival "A"⟩, ⟨7, EKind.arrival "A"⟩,
         ⟨9, EKind.completion "A"⟩]).trace) :=
  claim_C4 doNone 10 (GroceryStoreSimulation.init ())
    [⟨0, EKind.arrival "A"⟩, ⟨7, EKind.arrival "A"⟩, ⟨9, EKind.completion "A"⟩]
    "A" 0 7 (by decide) (by decide) (by decide) (by decide)
